import Mathlib

set_option maxRecDepth 8000

/-! Verification of the koalatype core (src/main.py): the scorer, the layout
engine, the render state builder, and the input state machine of the
session loop. Characters are `Char`, strings are `List Char`, and the
float arithmetic of the source is modelled over `ℚ`. -/

/-- Splitting a character list on every single space, mirroring the Python call
`text.split(" ")`: consecutive separators and leading/trailing separators
produce empty tokens, and the result is never the empty list. -/
def splitSp : List Char → List (List Char)
  | [] => [[]]
  | c :: r =>
    match splitSp r with
    | [] => [[]]
    | t :: ts => if c = ' ' then [] :: t :: ts else (c :: t) :: ts

/-- Joining tokens with single spaces, mirroring the Python join with a single space. -/
def joinSp : List (List Char) → List Char
  | [] => []
  | [t] => t
  | t :: ts => t ++ ' ' :: joinSp ts

/-- Splitting on every single whitespace character (empty pieces kept). -/
def splitWS : List Char → List (List Char)
  | [] => [[]]
  | c :: r =>
    match splitWS r with
    | [] => [[]]
    | t :: ts => if c.isWhitespace then [] :: t :: ts else (c :: t) :: ts

/-- The Python call `s.split()` with no argument: split on whitespace runs and drop
the empty pieces. -/
def pyWords (l : List Char) : List (List Char) :=
  (splitWS l).filter (fun t => !t.isEmpty)

/-- Result record of the scorer `_score` (the returned dict). -/
structure ScoreResult where
  accuracy : ℚ
  wpm : ℚ
  correct : ℚ
  total : ℚ
  deriving DecidableEq, Repr

/-- The scorer `_score` from src/main.py, float arithmetic modelled by ℚ
(the epsilon `1e-9` becomes the rational `1 / 1000000000`). -/
def score (prompt typed : List Char) (elapsed_seconds : ℚ) : ScoreResult :=
  let prompt_words := pyWords prompt
  let typed_words := pyWords typed
  let correct :=
    ((prompt_words.zip typed_words).filter (fun p => decide (p.1 = p.2))).length
  let total := max prompt_words.length 1
  let accuracy := (correct : ℚ) / (total : ℚ)
  let minutes := max (elapsed_seconds / 60) ((1 : ℚ) / 1000000000)
  let wpm := (typed_words.length : ℚ) / minutes
  { accuracy := accuracy * 100
    wpm := wpm
    correct := (correct : ℚ)
    total := (total : ℚ) }

/-- Positions recorded while appending `n` consecutive characters starting
at `(row, col)`: the column advances by one per character. -/
def placeChars (row col : Nat) : Nat → List (Nat × Nat)
  | 0 => []
  | n + 1 => (row, col) :: placeChars row (col + 1) n

/-- The greedy line-fill of `_layout_prompt` over the remaining tokens.
State: current row, current column, current line buffer, finished lines,
recorded positions. A token first triggers a line flush when it does not
fit (`col > 0 and col + 1 + len(word) > width`), then a separating space
is appended and recorded only when `col > 0`, then the characters of the token
are appended and recorded one by one. -/
def layoutAux (width : Nat) : List (List Char) → Nat → Nat → List Char →
    List (List Char) → List (Nat × Nat) → List (List Char) × List (Nat × Nat)
  | [], _, _, cur, lines, pos =>
    (if cur = [] ∧ lines ≠ [] then lines else lines ++ [cur], pos)
  | w :: rest, row, col, cur, lines, pos =>
    if 0 < col then
      if width < col + 1 + w.length then
        layoutAux width rest (row + 1) w.length w (lines ++ [cur])
          (pos ++ placeChars (row + 1) 0 w.length)
      else
        layoutAux width rest row (col + 1 + w.length) (cur ++ ' ' :: w) lines
          (pos ++ (row, col) :: placeChars row (col + 1) w.length)
    else
      layoutAux width rest row (col + w.length) (cur ++ w) lines
        (pos ++ placeChars row 0 w.length)

/-- The layout engine `_layout_prompt` from src/main.py. -/
def layout_prompt (text : List Char) (width : Nat) :
    List (List Char) × List (Nat × Nat) :=
  layoutAux width (splitSp text) 0 0 [] [] []

/-- A prompt word padded with trailing spaces to cover typed overflow:
`word + " " * max(len(typed_word) - len(word), 0)` in the source (Nat
subtraction truncates identically). -/
def renderedWord (word typed_word : List Char) : List Char :=
  word ++ List.replicate (typed_word.length - word.length) ' '

/-- The recursion of `_build_rendered_text` over the prompt words, carrying
the running length accumulator `index`; `typed.headD []` is
`typed_words[w_idx] if w_idx < len(typed_words) else []`. -/
def buildAux : List (List Char) → List (List Char) → Nat →
    List (List Char) × List Nat
  | [], _, _ => ([], [])
  | word :: ws, typed, index =>
    let rw := renderedWord word (typed.headD [])
    let res := buildAux ws typed.tail (index + rw.length + 1)
    (rw :: res.1, index :: res.2)

/-- The render state builder `_build_rendered_text` from src/main.py. -/
def build_rendered_text (prompt_words typed_words : List (List Char)) :
    List Char × List Nat :=
  let res := buildAux prompt_words typed_words 0
  (joinSp res.1, res.2)

/-- Length of the rendered slot of word `i`: the word plus its overflow
padding, i.e. the longer of the expected and the typed word. -/
def slotD (words typed : List (List Char)) (i : Nat) : Nat :=
  max (words.getD i []).length (typed.getD i []).length

/-- Closed form of the running length accumulator: the start offset of word
`i` within the rendered text. -/
def startOf (words typed : List (List Char)) (i : Nat) : Nat :=
  ((List.range i).map (fun j => slotD words typed j + 1)).sum

/-- Modelled from the spec: "mapping that coordinate back via
`promptStarts`" — the source has no explicit inverse, so the offset is
attributed to the last word whose start does not exceed it, with the
remainder as the character index within that word. -/
def mapBack (starts : List Nat) (off : Nat) : Nat × Nat :=
  let w := starts.countP (fun s => decide (s ≤ off)) - 1
  (w, off - starts.getD w 0)

/-- Input state machine state: the per-word typed buffers and the current
word index (the loop variables `typed_words` and `word_index`). -/
structure TState where
  typed : List (List Char)
  idx : Nat
  deriving DecidableEq, Repr

/-- Printable-character event: append the character to the buffer of the current word (`typed_words[word_index].append(key)`). -/
def charStep (s : TState) (c : Char) : TState :=
  { s with typed := s.typed.set s.idx (s.typed.getD s.idx [] ++ [c]) }

/-- Backspace event from the session loop: drop the last character of the
current buffer if non-empty, else step back one word (popping the last
buffer) when possible, else do nothing. -/
def backspaceStep (s : TState) : TState :=
  if s.typed.getD s.idx [] ≠ [] then
    { s with typed := s.typed.set s.idx (s.typed.getD s.idx []).dropLast }
  else if 0 < s.idx then
    { typed := s.typed.dropLast, idx := s.idx - 1 }
  else s

/-- Advance (space) event; the Bool is the session-complete signal (the
early loop break on an exactly matched last word). -/
def advanceStep (prompt_words : List (List Char)) (s : TState) :
    TState × Bool :=
  if s.idx = prompt_words.length - 1 then
    if s.typed.getD s.idx [] = prompt_words.getD s.idx [] then (s, true)
    else (s, false)
  else if s.idx < prompt_words.length - 1 then
    ({ typed := if s.typed.length ≤ s.idx + 1 then s.typed ++ [[]] else s.typed
       idx := s.idx + 1 }, false)
  else (s, false)

/-- Discrete input events of the session loop. -/
inductive Ev where
  | char (c : Char)
  | backspace
  | advance
  | resize
  | timeout
  deriving DecidableEq, Repr

/-- One dispatch of the session loop on an input event; the Bool signals
session completion. Resize and timeout mutate nothing. -/
def stepEv (prompt_words : List (List Char)) (s : TState) : Ev → TState × Bool
  | Ev.char c => (charStep s c, false)
  | Ev.backspace => (backspaceStep s, false)
  | Ev.advance => advanceStep prompt_words s
  | Ev.resize => (s, false)
  | Ev.timeout => (s, false)

/-- Initial state of the session loop: one empty buffer, index 0. -/
def initState : TState := { typed := [[]], idx := 0 }

/-- Folding a sequence of events through the state machine. -/
def runEvs (prompt_words : List (List Char)) (s : TState) : List Ev → TState
  | [] => s
  | e :: es => runEvs prompt_words (stepEv prompt_words s e).1 es

/-- The loop invariants of the input state machine: exactly one buffer per
visited word, and a valid current word index. -/
def InvState (prompt_words : List (List Char)) (s : TState) : Prop :=
  s.typed.length = s.idx + 1 ∧ s.idx < prompt_words.length

/-- Relation between consecutive recorded positions: the next character sits
one column further on the same row, or at column 0 of the next row. -/
def stepRel (p q : Nat × Nat) : Prop :=
  q = (p.1, p.2 + 1) ∨ q = (p.1 + 1, 0)

/-- Strict lexicographic order on (row, column). -/
def lexLT (p q : Nat × Nat) : Prop :=
  p.1 < q.1 ∨ (p.1 = q.1 ∧ p.2 < q.2)

instance stepRelDec : ∀ p q, Decidable (stepRel p q) := fun _ _ =>
  inferInstanceAs (Decidable (_ ∨ _))

instance lexLTDec : ∀ p q, Decidable (lexLT p q) := fun _ _ =>
  inferInstanceAs (Decidable (_ ∨ _))

theorem zipMatchCount (a b : List (List Char)) :
    ((a.zip b).filter (fun p => decide (p.1 = p.2))).length =
    (List.range (min a.length b.length)).countP
      (fun k => decide (a.getD k [] = b.getD k [])) := by
  rw [← List.countP_eq_length_filter]
  induction a generalizing b with
  | nil => simp
  | cons x xs ih =>
    cases b with
    | nil => simp
    | cons y ys =>
      rw [List.zip_cons_cons, List.countP_cons, ih ys, List.length_cons,
        List.length_cons, Nat.succ_min_succ, List.range_succ_eq_map,
        List.countP_cons, List.countP_map]
      simp [Function.comp_def]


theorem score_correct (p t : List Char) (e : ℚ) :
    (score p t e).correct =
    (((((pyWords p).zip (pyWords t)).filter
      (fun q => decide (q.1 = q.2))).length : Nat) : ℚ) := rfl

theorem score_total (p t : List Char) (e : ℚ) :
    (score p t e).total = ((max (pyWords p).length 1 : Nat) : ℚ) := rfl

theorem score_accuracy (p t : List Char) (e : ℚ) :
    (score p t e).accuracy =
    (((((pyWords p).zip (pyWords t)).filter
      (fun q => decide (q.1 = q.2))).length : Nat) : ℚ) /
      ((max (pyWords p).length 1 : Nat) : ℚ) * 100 := rfl

theorem score_wpm (p t : List Char) (e : ℚ) :
    (score p t e).wpm =
    ((pyWords t).length : ℚ) / max (e / 60) ((1 : ℚ) / 1000000000) := rfl

theorem scoreResult_ext (a b : ScoreResult) (h1 : a.accuracy = b.accuracy)
    (h2 : a.wpm = b.wpm) (h3 : a.correct = b.correct)
    (h4 : a.total = b.total) : a = b := by
  cases a; cases b; simp_all

/-- C4: the scorer splits both strings on whitespace runs, `correct` counts
the positions where both word sequences agree, `total` is the prompt word
count clamped to at least 1, `accuracy = 100 * correct / total`, `wpm`
divides the count of all typed words by the clamped minutes (which are
always positive, so no degenerate input can fail), and on "the quick fox"
vs "the quik fox" it yields correct = 2, total = 3, accuracy = 200/3. -/
theorem c4_score_spec :
    (∀ (prompt typed : List Char) (e : ℚ),
      (score prompt typed e).correct =
        (((List.range (min (pyWords prompt).length (pyWords typed).length)).countP
          (fun k => decide ((pyWords prompt).getD k [] = (pyWords typed).getD k []))
          : Nat) : ℚ) ∧
      (score prompt typed e).total = ((max (pyWords prompt).length 1 : Nat) : ℚ) ∧
      (score prompt typed e).accuracy =
        100 * (score prompt typed e).correct / (score prompt typed e).total ∧
      (score prompt typed e).wpm =
        ((pyWords typed).length : ℚ) / max (e / 60) ((1 : ℚ) / 1000000000) ∧
      (0 : ℚ) < max (e / 60) ((1 : ℚ) / 1000000000)) ∧
    score "the quick fox".data "the quik fox".data 60 =
      { accuracy := 200 / 3, wpm := 3, correct := 2, total := 3 } := by
  constructor
  · intro prompt typed e
    refine ⟨?_, score_total _ _ _, ?_, score_wpm _ _ _, ?_⟩
    · rw [score_correct]
      exact_mod_cast zipMatchCount (pyWords prompt) (pyWords typed)
    · rw [score_accuracy, score_correct, score_total, mul_comm, mul_div_assoc]
    · exact lt_max_of_lt_right (by norm_num)
  · have hc : ((((pyWords "the quick fox".data).zip
        (pyWords "the quik fox".data)).filter
        (fun q => decide (q.1 = q.2))).length : Nat) = 2 := by decide
    have htot : (max (pyWords "the quick fox".data).length 1 : Nat) = 3 := by
      decide
    have hlen : ((pyWords "the quik fox".data).length : Nat) = 3 := by decide
    refine scoreResult_ext _ _ ?_ ?_ ?_ ?_
    · rw [score_accuracy, hc, htot]
      norm_num
    · rw [score_wpm, hlen]
      rw [max_eq_left (by norm_num : ((1 : ℚ) / 1000000000) ≤ 60 / 60)]
      norm_num
    · rw [score_correct, hc]
      norm_num
    · rw [score_total, htot]
      norm_num

/-- C9: for every input, the correct count of the scorer lies between 0 and the
total, the accuracy lies between 0 and 100, and the wpm is non-negative
whenever the elapsed time is non-negative. -/
theorem c9_score_bounds (prompt typed : List Char) (e : ℚ) :
    0 ≤ (score prompt typed e).correct ∧
    (score prompt typed e).correct ≤ (score prompt typed e).total ∧
    0 ≤ (score prompt typed e).accuracy ∧
    (score prompt typed e).accuracy ≤ 100 ∧
    (0 ≤ e → 0 ≤ (score prompt typed e).wpm) := by
  have hc : (((pyWords prompt).zip (pyWords typed)).filter
      (fun q => decide (q.1 = q.2))).length ≤ max (pyWords prompt).length 1 := by
    calc (((pyWords prompt).zip (pyWords typed)).filter
        (fun q => decide (q.1 = q.2))).length
        ≤ ((pyWords prompt).zip (pyWords typed)).length :=
          List.length_filter_le _ _
      _ ≤ (pyWords prompt).length := by
          rw [List.length_zip]; exact Nat.min_le_left _ _
      _ ≤ max (pyWords prompt).length 1 := le_max_left _ _
  have ht : (0 : ℚ) < ((max (pyWords prompt).length 1 : Nat) : ℚ) := by
    exact_mod_cast Nat.lt_of_lt_of_le Nat.zero_lt_one (le_max_right _ _)
  have hdiv : (((((pyWords prompt).zip (pyWords typed)).filter
      (fun q => decide (q.1 = q.2))).length : Nat) : ℚ) /
      ((max (pyWords prompt).length 1 : Nat) : ℚ) ≤ 1 := by
    rw [div_le_one ht]
    exact_mod_cast hc
  refine ⟨?_, ?_, ?_, ?_, ?_⟩
  · rw [score_correct]; positivity
  · rw [score_correct, score_total]
    exact_mod_cast hc
  · rw [score_accuracy]; positivity
  · rw [score_accuracy]
    nlinarith [hdiv]
  · intro _
    rw [score_wpm]
    have hm : (0 : ℚ) < max (e / 60) ((1 : ℚ) / 1000000000) :=
      lt_max_of_lt_right (by norm_num)
    positivity

theorem c9_score_bounds_witness :
    0 ≤ (score "the quick fox".data "the quik fox".data 0).wpm :=
  (c9_score_bounds "the quick fox".data "the quik fox".data 0).2.2.2.2
    (le_refl 0)

theorem getD_set_self (l : List (List Char)) (i : Nat) (a : List Char)
    (h : i < l.length) : (l.set i a).getD i [] = a := by
  rw [List.getD_eq_getElem?_getD, List.getElem?_set_eq_of_lt _ h]
  rfl

/-- C3: on the advance (space) event, an exactly matched last word signals
session completion with no state change (the loop breaks even with time
remaining); an unmatched last word swallows the event; a non-last word
advances the index and lazily creates an empty buffer at the new index. -/
theorem c3_advance_spec (prompt_words : List (List Char)) (s : TState)
    (hne : prompt_words ≠ []) :
    (s.idx = prompt_words.length - 1 →
      s.typed.getD s.idx [] = prompt_words.getD s.idx [] →
      advanceStep prompt_words s = (s, true)) ∧
    (s.idx = prompt_words.length - 1 →
      s.typed.getD s.idx [] ≠ prompt_words.getD s.idx [] →
      advanceStep prompt_words s = (s, false)) ∧
    (s.idx < prompt_words.length - 1 →
      advanceStep prompt_words s =
        ({ typed := if s.typed.length ≤ s.idx + 1 then s.typed ++ [[]]
             else s.typed
           idx := s.idx + 1 }, false)) := by
  refine ⟨?_, ?_, ?_⟩
  · intro h1 h2
    unfold advanceStep
    rw [if_pos h1, if_pos h2]
  · intro h1 h2
    unfold advanceStep
    rw [if_pos h1, if_neg h2]
  · intro h1
    unfold advanceStep
    rw [if_neg (Nat.ne_of_lt h1), if_pos h1]

theorem c3_advance_spec_witness :
    advanceStep [['a', 'b'], ['c']] ⟨[['a', 'b']], 0⟩ =
      (⟨[['a', 'b'], []], 1⟩, false) ∧
    advanceStep [['c']] ⟨[['c']], 0⟩ = (⟨[['c']], 0⟩, true) ∧
    advanceStep [['c']] ⟨[['x']], 0⟩ = (⟨[['x']], 0⟩, false) := by
  refine ⟨?_, ?_, ?_⟩
  · exact ((c3_advance_spec [['a', 'b'], ['c']] ⟨[['a', 'b']], 0⟩
      (by decide)).2.2 (by decide)).trans (by decide)
  · exact (c3_advance_spec [['c']] ⟨[['c']], 0⟩ (by decide)).1
      (by decide) (by decide)
  · exact (c3_advance_spec [['c']] ⟨[['x']], 0⟩ (by decide)).2.1
      (by decide) (by decide)

/-- C5: backspace removes the last character of the current buffer when it
is non-empty (index and buffer count unchanged); with an empty buffer and
a positive index it steps back one word and drops one buffer; with an
empty buffer at index 0 it changes nothing. -/
theorem c5_backspace_spec (s : TState) (hidx : s.idx < s.typed.length) :
    (s.typed.getD s.idx [] ≠ [] →
      (backspaceStep s).idx = s.idx ∧
      (backspaceStep s).typed.length = s.typed.length ∧
      (backspaceStep s).typed.getD s.idx [] =
        (s.typed.getD s.idx []).dropLast) ∧
    (s.typed.getD s.idx [] = [] → 0 < s.idx →
      (backspaceStep s).idx = s.idx - 1 ∧
      (backspaceStep s).typed = s.typed.dropLast ∧
      (backspaceStep s).typed.length + 1 = s.typed.length) ∧
    (s.typed.getD s.idx [] = [] → s.idx = 0 → backspaceStep s = s) := by
  refine ⟨?_, ?_, ?_⟩
  · intro hb
    unfold backspaceStep
    rw [if_pos hb]
    exact ⟨rfl, by simp, getD_set_self _ _ _ (by simpa using hidx)⟩
  · intro hb hi
    unfold backspaceStep
    rw [if_neg (by simpa using hb), if_pos hi]
    refine ⟨rfl, rfl, ?_⟩
    have : 0 < s.typed.length := Nat.lt_of_le_of_lt (Nat.zero_le _) hidx
    simp only [List.length_dropLast]
    omega
  · intro hb hi
    unfold backspaceStep
    rw [if_neg (by simpa using hb), if_neg (by omega)]

theorem c5_backspace_spec_witness :
    backspaceStep ⟨[[]], 0⟩ = ⟨[[]], 0⟩ ∧
    (backspaceStep ⟨[['a', 'b']], 0⟩).typed.getD 0 [] = ['a'] ∧
    (backspaceStep ⟨[['a'], []], 1⟩).idx = 0 := by
  refine ⟨?_, ?_, ?_⟩
  · exact (c5_backspace_spec ⟨[[]], 0⟩ (by decide)).2.2 (by decide) (by decide)
  · exact ((c5_backspace_spec ⟨[['a', 'b']], 0⟩ (by decide)).1
      (by decide)).2.2.trans (by decide)
  · exact (((c5_backspace_spec ⟨[['a'], []], 1⟩ (by decide)).2.1
      (by decide) (by decide)).1).trans (by decide)

theorem invState_step (prompt_words : List (List Char))
    (hne : prompt_words ≠ []) (s : TState) (h : InvState prompt_words s)
    (e : Ev) : InvState prompt_words (stepEv prompt_words s e).1 := by
  obtain ⟨h1, h2⟩ := h
  have hlen : 0 < prompt_words.length := List.length_pos.mpr hne
  cases e with
  | char c =>
    exact ⟨by simp [stepEv, charStep, h1], by simpa [stepEv, charStep] using h2⟩
  | backspace =>
    show InvState prompt_words (backspaceStep s)
    unfold backspaceStep
    by_cases hb : s.typed.getD s.idx [] = []
    · rw [if_neg (by simpa using hb)]
      by_cases hi : 0 < s.idx
      · rw [if_pos hi]
        refine ⟨?_, by simp; omega⟩
        simp only [List.length_dropLast]
        omega
      · rw [if_neg hi]
        exact ⟨h1, h2⟩
    · rw [if_pos hb]
      exact ⟨by simp [h1], h2⟩
  | advance =>
    show InvState prompt_words (advanceStep prompt_words s).1
    unfold advanceStep
    by_cases hl : s.idx = prompt_words.length - 1
    · rw [if_pos hl]
      by_cases heq : s.typed.getD s.idx [] = prompt_words.getD s.idx []
      · rw [if_pos heq]
        exact ⟨h1, h2⟩
      · rw [if_neg heq]
        exact ⟨h1, h2⟩
    · rw [if_neg hl]
      by_cases hlt : s.idx < prompt_words.length - 1
      · rw [if_pos hlt]
        have happ : s.typed.length ≤ s.idx + 1 := le_of_eq h1
        rw [if_pos happ]
        exact ⟨by simp [h1], by show s.idx + 1 < prompt_words.length; omega⟩
      · rw [if_neg hlt]
        exact ⟨h1, h2⟩
  | resize => exact ⟨h1, h2⟩
  | timeout => exact ⟨h1, h2⟩

/-- C6: from the initial state (one empty buffer, index 0), any sequence of
character, backspace, advance, resize, and timeout events over a non-empty
prompt keeps the invariants: one buffer per visited word
(`len(typed_words) = word_index + 1`) and a current index inside the
prompt. -/
theorem c6_invariant (prompt_words : List (List Char))
    (hne : prompt_words ≠ []) (evs : List Ev) :
    InvState prompt_words (runEvs prompt_words initState evs) := by
  have h0 : InvState prompt_words initState :=
    ⟨rfl, List.length_pos.mpr hne⟩
  suffices h : ∀ (l : List Ev) (s : TState), InvState prompt_words s →
      InvState prompt_words (runEvs prompt_words s l) from h evs initState h0
  intro l
  induction l with
  | nil => intro s hs; exact hs
  | cons e es ih =>
    intro s hs
    exact ih _ (invState_step prompt_words hne s hs e)

theorem c6_invariant_witness :
    InvState [['a'], ['b']]
      (runEvs [['a'], ['b']] initState
        [Ev.char 'a', Ev.advance, Ev.char 'x', Ev.backspace, Ev.backspace,
         Ev.resize, Ev.timeout, Ev.advance]) :=
  c6_invariant [['a'], ['b']] (by decide) _

theorem joinSp_cons (t : List Char) (ts : List (List Char)) (h : ts ≠ []) :
    joinSp (t :: ts) = t ++ ' ' :: joinSp ts := by
  cases ts with
  | nil => exact absurd rfl h
  | cons u us => rfl

theorem renderedWord_length (w t : List Char) :
    (renderedWord w t).length = max w.length t.length := by
  simp only [renderedWord, List.length_append, List.length_replicate]
  omega

theorem getD_tail_succ (l : List (List Char)) (j : Nat) :
    l.getD (j + 1) [] = l.tail.getD j [] := by
  cases l <;> simp [List.getD]

theorem getD_zero_headD (l : List (List Char)) :
    l.getD 0 [] = l.headD [] := by
  cases l <;> simp [List.getD]

theorem startOf_zero (words typed : List (List Char)) :
    startOf words typed 0 = 0 := by
  simp [startOf]

theorem startOf_succ (words typed : List (List Char)) (i : Nat) :
    startOf words typed (i + 1) =
      startOf words typed i + (slotD words typed i + 1) := by
  unfold startOf
  rw [List.range_succ, List.map_append, List.sum_append]
  simp

theorem slotD_cons_succ (w : List Char) (ws typed : List (List Char))
    (j : Nat) : slotD (w :: ws) typed (j + 1) = slotD ws typed.tail j := by
  simp [slotD, List.getD_cons_succ, getD_tail_succ]

theorem slotD_cons_zero (w : List Char) (ws typed : List (List Char)) :
    slotD (w :: ws) typed 0 = max w.length ((typed.headD []).length) := by
  cases typed <;> simp [slotD, List.getD]

theorem startOf_succ_cons (w : List Char) (ws typed : List (List Char))
    (i : Nat) :
    startOf (w :: ws) typed (i + 1) =
      (slotD (w :: ws) typed 0 + 1) + startOf ws typed.tail i := by
  induction i with
  | zero => simp [startOf_succ, startOf_zero]
  | succ j ih =>
    rw [startOf_succ, ih, startOf_succ]
    rw [slotD_cons_succ]
    omega

theorem buildAux_snd (ws : List (List Char)) :
    ∀ (typed : List (List Char)) (idx : Nat),
    (buildAux ws typed idx).2 =
      (List.range ws.length).map (fun i => idx + startOf ws typed i) := by
  induction ws with
  | nil => intro typed idx; simp [buildAux]
  | cons w ws ih =>
    intro typed idx
    simp only [buildAux, List.length_cons, List.range_succ_eq_map,
      List.map_cons, List.map_map]
    rw [startOf_zero, Nat.add_zero]
    congr 1
    rw [ih typed.tail]
    refine List.map_congr_left ?_
    intro i _
    simp only [Function.comp_apply]
    rw [startOf_succ_cons, renderedWord_length, slotD_cons_zero]
    omega

theorem buildAux_fst (ws : List (List Char)) :
    ∀ (typed : List (List Char)) (idx : Nat),
    (buildAux ws typed idx).1 =
      (List.range ws.length).map (fun i =>
        ws.getD i [] ++
        List.replicate ((typed.getD i []).length - (ws.getD i []).length)
          ' ') := by
  induction ws with
  | nil => intro typed idx; simp [buildAux]
  | cons w ws ih =>
    intro typed idx
    simp only [buildAux, List.length_cons, List.range_succ_eq_map,
      List.map_cons, List.map_map]
    congr 1
    · cases typed <;> simp [renderedWord, List.getD]
    · rw [ih typed.tail]
      refine List.map_congr_left ?_
      intro i _
      simp only [Function.comp_apply, List.getD_cons_succ, getD_tail_succ]

/-- C7: the rendered text is the prompt words, each padded with exactly
`max(0, len(typed_i) - len(word_i))` trailing spaces, joined by single
spaces, and `promptStarts[i]` is the running length accumulated before
word `i` (each earlier slot plus one joining space, the joining space not
belonging to the slot of any word); concretely, expected "cat" with typed
"catdog" renders as "cat" followed by three padding spaces. -/
theorem c7_build_spec :
    (∀ (prompt_words typed_words : List (List Char)),
      (build_rendered_text prompt_words typed_words).2.length =
        prompt_words.length ∧
      (build_rendered_text prompt_words typed_words).1 =
        joinSp ((List.range prompt_words.length).map (fun i =>
          prompt_words.getD i [] ++
          List.replicate ((typed_words.getD i []).length -
            (prompt_words.getD i []).length) ' ')) ∧
      (∀ i, i < prompt_words.length →
        (build_rendered_text prompt_words typed_words).2.getD i 0 =
          startOf prompt_words typed_words i)) ∧
    renderedWord ['c', 'a', 't'] ['c', 'a', 't', 'd', 'o', 'g'] =
      ['c', 'a', 't', ' ', ' ', ' '] := by
  constructor
  · intro prompt_words typed_words
    refine ⟨?_, ?_, ?_⟩
    · show (buildAux prompt_words typed_words 0).2.length = _
      rw [buildAux_snd]
      simp
    · show joinSp (buildAux prompt_words typed_words 0).1 = _
      rw [buildAux_fst]
    · intro i hi
      show (buildAux prompt_words typed_words 0).2.getD i 0 = _
      rw [buildAux_snd]
      rw [List.getD_eq_getElem?_getD, List.getElem?_map,
        List.getElem?_range hi]
      simp
  · decide

theorem c7_build_spec_witness :
    (build_rendered_text [['c', 'a', 't']]
      [['c', 'a', 't', 'd', 'o', 'g']]).2.getD 0 0 =
      startOf [['c', 'a', 't']] [['c', 'a', 't', 'd', 'o', 'g']] 0 :=
  (c7_build_spec.1 [['c', 'a', 't']] [['c', 'a', 't', 'd', 'o', 'g']]).2.2
    0 (by decide)

theorem splitSp_ne_nil (l : List Char) : splitSp l ≠ [] := by
  cases l with
  | nil => simp [splitSp]
  | cons c r =>
    simp only [splitSp]
    cases splitSp r with
    | nil => simp
    | cons t ts =>
      dsimp only
      split <;> simp

theorem joinSp_splitSp (l : List Char) : joinSp (splitSp l) = l := by
  induction l with
  | nil => rfl
  | cons c r ih =>
    cases h : splitSp r with
    | nil => exact absurd h (splitSp_ne_nil r)
    | cons t ts =>
      rw [h] at ih
      by_cases hc : c = ' '
      · subst hc
        have hs : splitSp (' ' :: r) = [] :: t :: ts := by
          simp [splitSp, h]
        rw [hs, joinSp_cons _ _ (by simp)]
        simpa using ih
      · simp only [splitSp, h, if_neg hc]
        cases ts with
        | nil =>
          simp only [joinSp] at ih ⊢
          rw [ih]
        | cons u us =>
          rw [joinSp_cons _ _ (by simp)] at ih
          rw [joinSp_cons _ _ (by simp)]
          simp only [List.cons_append, List.append_assoc] at ih ⊢
          rw [ih]

/-- The text contributed by the remaining tokens: one separator before each
token. -/
def sepJoin (ts : List (List Char)) : List Char :=
  ts.foldr (fun t acc => ' ' :: (t ++ acc)) []

theorem sepJoin_nil : sepJoin [] = [] := rfl

theorem sepJoin_cons (t : List Char) (ts : List (List Char)) :
    sepJoin (t :: ts) = ' ' :: (t ++ sepJoin ts) := rfl

theorem joinSp_cons_sepJoin (t : List Char) (ts : List (List Char)) :
    joinSp (t :: ts) = t ++ sepJoin ts := by
  induction ts generalizing t with
  | nil => simp [joinSp, sepJoin_nil]
  | cons u us ih =>
    rw [joinSp_cons _ _ (by simp), sepJoin_cons, ih u]

theorem joinSp_append_singleton (xs : List (List Char)) (y : List Char) :
    joinSp (xs ++ [y]) =
      joinSp xs ++ (if xs = [] then [] else [' ']) ++ y := by
  induction xs with
  | nil => simp [joinSp]
  | cons x xs ih =>
    cases xs with
    | nil => simp [joinSp]
    | cons z zs =>
      rw [List.cons_append, joinSp_cons _ _ (by simp),
        joinSp_cons _ _ (by simp), ih]
      simp [List.append_assoc]

theorem joinSp_length (ls : List (List Char)) (h : ls ≠ []) :
    (joinSp ls).length + 1 = (ls.map List.length).sum + ls.length := by
  induction ls with
  | nil => exact absurd rfl h
  | cons t ts ih =>
    cases ts with
    | nil => simp [joinSp]
    | cons u us =>
      rw [joinSp_cons _ _ (by simp)]
      have h2 := ih (by simp)
      simp only [List.length_append, List.length_cons, List.map_cons,
        List.sum_cons] at h2 ⊢
      omega

theorem placeChars_length (row col n : Nat) :
    (placeChars row col n).length = n := by
  induction n generalizing col with
  | zero => rfl
  | succ m ih => simp [placeChars, ih]

theorem placeChars_append (row col a b : Nat) :
    placeChars row col (a + b) =
      placeChars row col a ++ placeChars row (col + a) b := by
  induction a generalizing col with
  | zero => simp [placeChars]
  | succ m ih =>
    rw [Nat.succ_add]
    simp only [placeChars, List.cons_append]
    rw [ih (col + 1)]
    have : col + 1 + m = col + (m + 1) := by omega
    rw [this]

theorem placeChars_getD (row col n k : Nat) (h : k < n) :
    (placeChars row col n).getD k (0, 0) = (row, col + k) := by
  induction n generalizing col k with
  | zero => omega
  | succ m ih =>
    cases k with
    | zero => simp [placeChars, List.getD]
    | succ j =>
      show (placeChars row (col + 1) m).getD j (0, 0) = _
      rw [ih (col + 1) j (by omega)]
      have : col + 1 + j = col + (j + 1) := by omega
      rw [this]

theorem placeChars_mem_bound (row col n : Nat) (p : Nat × Nat)
    (hp : p ∈ placeChars row col n) :
    p.1 = row ∧ col ≤ p.2 ∧ p.2 < col + n := by
  induction n generalizing col with
  | zero => simp [placeChars] at hp
  | succ m ih =>
    simp only [placeChars, List.mem_cons] at hp
    rcases hp with h | h
    · subst h
      exact ⟨rfl, le_refl _, by omega⟩
    · have := ih (col + 1) h
      exact ⟨this.1, by omega, by omega⟩

theorem placeChars_chain (row : Nat) :
    ∀ (n col : Nat), List.Chain' stepRel (placeChars row col n) := by
  intro n
  induction n with
  | zero => intro col; simp [placeChars]
  | succ m ih =>
    intro col
    cases m with
    | zero => simp [placeChars]
    | succ k =>
      show List.Chain' stepRel
        ((row, col) :: (row, col + 1) :: placeChars row (col + 1 + 1) k)
      rw [List.chain'_cons]
      exact ⟨Or.inl rfl, ih (col + 1)⟩

theorem placeChars_head (row col n : Nat) (h : 0 < n) :
    (placeChars row col n).head? = some (row, col) := by
  cases n with
  | zero => omega
  | succ m => rfl

theorem placeChars_getLast (row : Nat) :
    ∀ (n col : Nat), 0 < n →
    (placeChars row col n).getLast? = some (row, col + n - 1) := by
  intro n
  induction n with
  | zero => intro col h; omega
  | succ m ih =>
    intro col _
    cases m with
    | zero => rfl
    | succ k =>
      have h1 : placeChars row col (k + 1 + 1) =
          [(row, col)] ++ placeChars row (col + 1) (k + 1) := rfl
      rw [h1, List.getLast?_append_of_ne_nil _ (by simp [placeChars])]
      rw [ih (col + 1) (by omega)]
      have : col + 1 + (k + 1) - 1 = col + (k + 1 + 1) - 1 := by omega
      rw [this]

theorem layoutAux_pos_bound (width : Nat) (T : List (List Char)) :
    ∀ (ws : List (List Char)) (row col : Nat) (cur : List Char)
      (lines : List (List Char)) (pos : List (Nat × Nat)),
    (∀ w ∈ ws, w ∈ T) →
    (∀ p ∈ pos, p.2 < width ∨ ∃ t ∈ T, width < t.length ∧ p.2 < t.length) →
    ∀ p ∈ (layoutAux width ws row col cur lines pos).2,
      p.2 < width ∨ ∃ t ∈ T, width < t.length ∧ p.2 < t.length := by
  intro ws
  induction ws with
  | nil =>
    intro row col cur lines pos _ hpos p hp
    exact hpos p hp
  | cons w rest ih =>
    intro row col cur lines pos hmem hpos p hp
    have hmem' : ∀ u ∈ rest, u ∈ T := fun u hu =>
      hmem u (List.mem_cons_of_mem _ hu)
    have hwT : w ∈ T := hmem w (List.mem_cons_self _ _)
    have hfresh : ∀ q ∈ placeChars row 0 w.length,
        q.2 < width ∨ ∃ t ∈ T, width < t.length ∧ q.2 < t.length := by
      intro q hq
      obtain ⟨_, _, hqlt⟩ := placeChars_mem_bound _ _ _ _ hq
      by_cases hwlen : w.length ≤ width
      · exact Or.inl (by omega)
      · exact Or.inr ⟨w, hwT, by omega, by omega⟩
    by_cases h1 : 0 < col
    · by_cases h2 : width < col + 1 + w.length
      · simp only [layoutAux] at hp
        rw [if_pos h1, if_pos h2] at hp
        refine ih (row + 1) w.length w (lines ++ [cur]) _ hmem' ?_ p hp
        intro q hq
        rcases List.mem_append.mp hq with h | h
        · exact hpos q h
        · obtain ⟨_, _, hqlt⟩ := placeChars_mem_bound _ _ _ _ h
          by_cases hwlen : w.length ≤ width
          · exact Or.inl (by omega)
          · exact Or.inr ⟨w, hwT, by omega, by omega⟩
      · simp only [layoutAux] at hp
        rw [if_pos h1, if_neg h2] at hp
        refine ih row (col + 1 + w.length) (cur ++ ' ' :: w) lines _ hmem' ?_
          p hp
        intro q hq
        rcases List.mem_append.mp hq with h | h
        · exact hpos q h
        · rcases List.mem_cons.mp h with h' | h'
          · subst h'
            exact Or.inl (by omega)
          · obtain ⟨_, hqge, hqlt⟩ := placeChars_mem_bound _ _ _ _ h'
            exact Or.inl (by omega)
    · simp only [layoutAux] at hp
      rw [if_neg h1] at hp
      refine ih row (col + w.length) (cur ++ w) lines _ hmem' ?_ p hp
      intro q hq
      rcases List.mem_append.mp hq with h | h
      · exact hpos q h
      · exact hfresh q h

/-- C8: for every text and width ≥ 1, no recorded position has a column reaching
`width`, except for characters of a token whose own length exceeds `width`
(such a token is laid out unsplit from column 0, so even then the column
stays below the length of that token). -/
theorem c8_column_bound (text : List Char) (width : Nat) (hw : 1 ≤ width) :
    ∀ p ∈ (layout_prompt text width).2,
      p.2 < width ∨
      ∃ t ∈ splitSp text, width < t.length ∧ p.2 < t.length := by
  refine layoutAux_pos_bound width (splitSp text) (splitSp text) 0 0 [] [] []
    (fun w hw' => hw') ?_
  intro p hp
  simp at hp

theorem c8_column_bound_witness :
    ((0 : Nat), (2 : Nat)).2 < 2 ∨
    ∃ t ∈ splitSp "abc de".data, 2 < t.length ∧ ((0 : Nat), (2 : Nat)).2 < t.length :=
  c8_column_bound "abc de".data 2 (by norm_num) (0, 2) (by decide)

/-- Relation between the (row, col) cursor of the layout loop and the last
recorded position: nothing recorded yet (cursor at the origin), cursor one
column past the last recorded position on the same row, or cursor at
column 0 of the row after the last recorded position (just wrapped). -/
def lastState (row col : Nat) (pos : List (Nat × Nat)) : Prop :=
  (pos = [] ∧ row = 0 ∧ col = 0) ∨
  (∃ c, pos.getLast? = some (row, c) ∧ col = c + 1) ∨
  (∃ r c, row = r + 1 ∧ pos.getLast? = some (r, c) ∧ col = 0)

theorem layoutAux_chain (width : Nat) :
    ∀ (ws : List (List Char)) (row col : Nat) (cur : List Char)
      (lines : List (List Char)) (pos : List (Nat × Nat)),
    List.Chain' stepRel pos → lastState row col pos →
    List.Chain' stepRel (layoutAux width ws row col cur lines pos).2 ∧
    (∀ q, (layoutAux width ws row col cur lines pos).2.head? = some q →
      pos.head? = some q ∨ q = (0, 0)) := by
  intro ws
  induction ws with
  | nil =>
    intro row col cur lines pos hch _
    exact ⟨hch, fun q hq => Or.inl hq⟩
  | cons w rest ih =>
    intro row col cur lines pos hch hlast
    by_cases h1 : 0 < col
    · -- the cursor follows a recorded position on this row
      obtain ⟨c, hgl, hcol⟩ : ∃ c, pos.getLast? = some (row, c) ∧ col = c + 1 := by
        rcases hlast with ⟨_, _, h0⟩ | h | ⟨r, c, _, _, h0⟩
        · omega
        · exact h
        · omega
      have hpne : pos ≠ [] := by
        intro h
        rw [h] at hgl
        simp at hgl
      by_cases h2 : width < col + 1 + w.length
      · -- wrap, then place the token at column 0 of the next row
        simp only [layoutAux]
        rw [if_pos h1, if_pos h2]
        by_cases hwl : 0 < w.length
        · have hchain' : List.Chain' stepRel
              (pos ++ placeChars (row + 1) 0 w.length) := by
            rw [List.chain'_append]
            refine ⟨hch, placeChars_chain _ _ _, ?_⟩
            intro x hx y hy
            rw [hgl] at hx
            rw [placeChars_head _ _ _ hwl] at hy
            simp only [Option.mem_def, Option.some_inj] at hx hy
            subst hx
            subst hy
            exact Or.inr rfl
          have hlast' : lastState (row + 1) w.length
              (pos ++ placeChars (row + 1) 0 w.length) := by
            refine Or.inr (Or.inl ⟨w.length - 1, ?_, by omega⟩)
            rw [List.getLast?_append_of_ne_nil _ (by
              intro h
              have := placeChars_length (row + 1) 0 w.length
              rw [h] at this
              simp at this
              omega)]
            rw [placeChars_getLast _ _ _ hwl]
            simp
          have hres := ih (row + 1) w.length w (lines ++ [cur]) _ hchain' hlast'
          refine ⟨hres.1, ?_⟩
          intro q hq
          rcases hres.2 q hq with h | h
          · rw [List.head?_append_of_ne_nil _ hpne] at h
            exact Or.inl h
          · exact Or.inr h
        · -- empty token: nothing recorded, the cursor stays wrapped
          have hwl0 : w.length = 0 := by omega
          rw [hwl0]
          simp only [placeChars, List.append_nil]
          have hlast' : lastState (row + 1) 0 pos :=
            Or.inr (Or.inr ⟨row, c, rfl, hgl, rfl⟩)
          exact ih (row + 1) 0 w (lines ++ [cur]) pos hch hlast'
      · -- no wrap: separator space then the token, all on this row
        simp only [layoutAux]
        rw [if_pos h1, if_neg h2]
        have hpc : (row, col) :: placeChars row (col + 1) w.length =
            placeChars row col (w.length + 1) := rfl
        have hchain' : List.Chain' stepRel
            (pos ++ (row, col) :: placeChars row (col + 1) w.length) := by
          rw [hpc, List.chain'_append]
          refine ⟨hch, placeChars_chain _ _ _, ?_⟩
          intro x hx y hy
          rw [hgl] at hx
          rw [placeChars_head _ _ _ (by omega)] at hy
          simp only [Option.mem_def, Option.some_inj] at hx hy
          subst hx
          subst hy
          exact Or.inl (by rw [hcol])
        have hlast' : lastState row (col + 1 + w.length)
            (pos ++ (row, col) :: placeChars row (col + 1) w.length) := by
          refine Or.inr (Or.inl ⟨col + w.length, ?_, by omega⟩)
          rw [hpc, List.getLast?_append_of_ne_nil _ (by
            intro h
            have := placeChars_length row col (w.length + 1)
            rw [h] at this
            simp at this)]
          rw [placeChars_getLast _ _ _ (by omega)]
          simp
        have hres := ih row (col + 1 + w.length) (cur ++ ' ' :: w) lines _
          hchain' hlast'
        refine ⟨hres.1, ?_⟩
        intro q hq
        rcases hres.2 q hq with h | h
        · rw [List.head?_append_of_ne_nil _ hpne] at h
          exact Or.inl h
        · exact Or.inr h
    · -- column 0: no separator, token placed at column 0
      have hcol0 : col = 0 := by omega
      subst hcol0
      simp only [layoutAux]
      rw [if_neg h1]
      rcases hlast with ⟨hpos0, hrow0, _⟩ | ⟨c, _, hcol⟩ | ⟨r, c, hrow, hgl, _⟩
      · -- nothing recorded yet: row = 0, pos = []
        subst hpos0
        subst hrow0
        by_cases hwl : 0 < w.length
        · have hchain' : List.Chain' stepRel ([] ++ placeChars 0 0 w.length) := by
            simpa using placeChars_chain 0 w.length 0
          have hlast' : lastState 0 (0 + w.length)
              ([] ++ placeChars 0 0 w.length) := by
            refine Or.inr (Or.inl ⟨w.length - 1, ?_, by omega⟩)
            simp only [List.nil_append]
            rw [placeChars_getLast _ _ _ hwl]
            simp
          have hres := ih 0 (0 + w.length) (cur ++ w) lines _ hchain' hlast'
          refine ⟨hres.1, ?_⟩
          intro q hq
          rcases hres.2 q hq with h | h
          · simp only [List.nil_append] at h
            rw [placeChars_head _ _ _ hwl] at h
            exact Or.inr (by injection h with h; exact h.symm)
          · exact Or.inr h
        · have hwl0 : w.length = 0 := by omega
          rw [hwl0]
          simp only [placeChars, List.append_nil]
          exact ih 0 (0 + 0) (cur ++ w) lines [] (by simp)
            (Or.inl ⟨rfl, rfl, by omega⟩)
      · omega
      · -- just wrapped: the token goes at column 0 of this row
        by_cases hwl : 0 < w.length
        · have hpne : pos ≠ [] := by
            intro h
            rw [h] at hgl
            simp at hgl
          have hchain' : List.Chain' stepRel
              (pos ++ placeChars row 0 w.length) := by
            rw [List.chain'_append]
            refine ⟨hch, placeChars_chain _ _ _, ?_⟩
            intro x hx y hy
            rw [hgl] at hx
            rw [placeChars_head _ _ _ hwl] at hy
            simp only [Option.mem_def, Option.some_inj] at hx hy
            subst hx
            subst hy
            exact Or.inr (by rw [hrow])
          have hlast' : lastState row (0 + w.length)
              (pos ++ placeChars row 0 w.length) := by
            refine Or.inr (Or.inl ⟨w.length - 1, ?_, by omega⟩)
            rw [List.getLast?_append_of_ne_nil _ (by
              intro h
              have := placeChars_length row 0 w.length
              rw [h] at this
              simp at this
              omega)]
            rw [placeChars_getLast _ _ _ hwl]
            simp
          have hres := ih row (0 + w.length) (cur ++ w) lines _ hchain' hlast'
          refine ⟨hres.1, ?_⟩
          intro q hq
          rcases hres.2 q hq with h | h
          · rw [List.head?_append_of_ne_nil _ hpne] at h
            exact Or.inl h
          · exact Or.inr h
        · have hwl0 : w.length = 0 := by omega
          rw [hwl0]
          simp only [placeChars, List.append_nil]
          exact ih row (0 + 0) (cur ++ w) lines pos hch
            (Or.inr (Or.inr ⟨r, c, hrow, hgl, by omega⟩))

instance lexLT_trans : IsTrans (Nat × Nat) lexLT := by
  refine ⟨fun a b c hab hbc => ?_⟩
  unfold lexLT at *
  omega

theorem stepRel_lexLT (p q : Nat × Nat) (h : stepRel p q) : lexLT p q := by
  rcases h with h | h <;> subst h
  · exact Or.inr ⟨rfl, by omega⟩
  · exact Or.inl (by omega)

/-- C10: the recorded positions are strictly increasing in lexicographic
(row, column) order: each consecutive position is either one column to the
right on the same row, or at column 0 of the next row (row + 1 at a wrap),
and the first recorded position is (0, 0); rows and columns are naturals,
hence non-negative. -/
theorem c10_positions_monotone (text : List Char) (width : Nat)
    (hw : 1 ≤ width) :
    List.Chain' stepRel (layout_prompt text width).2 ∧
    (∀ q, (layout_prompt text width).2.head? = some q → q = (0, 0)) ∧
    List.Pairwise lexLT (layout_prompt text width).2 := by
  have h := layoutAux_chain width (splitSp text) 0 0 [] [] [] (by simp)
    (Or.inl ⟨rfl, rfl, rfl⟩)
  refine ⟨h.1, ?_, ?_⟩
  · intro q hq
    rcases h.2 q hq with h' | h'
    · simp at h'
    · exact h'
  · exact List.chain'_iff_pairwise.mp (h.1.imp stepRel_lexLT)

theorem c10_positions_monotone_witness :
    List.Pairwise lexLT (layout_prompt "hello world foo".data 10).2 :=
  (c10_positions_monotone "hello world foo".data 10 (by norm_num)).2.2

theorem layoutAux_joinSp (width : Nat) :
    ∀ (ws : List (List Char)) (row col : Nat) (cur : List Char)
      (lines : List (List Char)) (pos : List (Nat × Nat)),
    col = cur.length → cur ≠ [] → (∀ w ∈ ws, w ≠ []) →
    joinSp (layoutAux width ws row col cur lines pos).1 =
      joinSp (lines ++ [cur ++ sepJoin ws]) := by
  intro ws
  induction ws with
  | nil =>
    intro row col cur lines pos _ hcur _
    show joinSp (if cur = [] ∧ lines ≠ [] then lines else lines ++ [cur]) = _
    rw [if_neg (by simp [hcur]), sepJoin_nil, List.append_nil]
  | cons w rest ih =>
    intro row col cur lines pos hcol hcur hws
    have hw : w ≠ [] := hws w (List.mem_cons_self _ _)
    have hrest : ∀ u ∈ rest, u ≠ [] := fun u hu =>
      hws u (List.mem_cons_of_mem _ hu)
    have hcolpos : 0 < col := by
      rw [hcol]
      exact List.length_pos.mpr hcur
    by_cases h2 : width < col + 1 + w.length
    · simp only [layoutAux]
      rw [if_pos hcolpos, if_pos h2]
      rw [ih (row + 1) w.length w (lines ++ [cur]) _ rfl hw hrest]
      rw [joinSp_append_singleton, joinSp_append_singleton,
        joinSp_append_singleton, sepJoin_cons]
      simp [List.append_assoc]
    · simp only [layoutAux]
      rw [if_pos hcolpos, if_neg h2]
      rw [ih row (col + 1 + w.length) (cur ++ ' ' :: w) lines _
        (by simp [hcol]; omega) (by simp) hrest]
      rw [sepJoin_cons]
      simp [List.append_assoc]

theorem layoutAux_sum (width : Nat) :
    ∀ (ws : List (List Char)) (row col : Nat) (cur : List Char)
      (lines : List (List Char)) (pos : List (Nat × Nat)),
    ((layoutAux width ws row col cur lines pos).1.map List.length).sum +
      pos.length =
    (lines.map List.length).sum + cur.length +
      (layoutAux width ws row col cur lines pos).2.length := by
  intro ws
  induction ws with
  | nil =>
    intro row col cur lines pos
    show ((if cur = [] ∧ lines ≠ [] then lines else lines ++ [cur]).map
      List.length).sum + pos.length =
      (lines.map List.length).sum + cur.length + pos.length
    by_cases h : cur = [] ∧ lines ≠ []
    · rw [if_pos h, h.1]
      simp
    · rw [if_neg h]
      simp
  | cons w rest ih =>
    intro row col cur lines pos
    by_cases h1 : 0 < col
    · by_cases h2 : width < col + 1 + w.length
      · simp only [layoutAux]
        rw [if_pos h1, if_pos h2]
        have := ih (row + 1) w.length w (lines ++ [cur])
          (pos ++ placeChars (row + 1) 0 w.length)
        simp only [List.map_append, List.sum_append, List.length_append,
          placeChars_length, List.map_cons, List.sum_cons, List.map_nil,
          List.sum_nil] at this ⊢
        omega
      · simp only [layoutAux]
        rw [if_pos h1, if_neg h2]
        have := ih row (col + 1 + w.length) (cur ++ ' ' :: w) lines
          (pos ++ (row, col) :: placeChars row (col + 1) w.length)
        simp only [List.length_append, List.length_cons, placeChars_length]
          at this ⊢
        omega
    · simp only [layoutAux]
      rw [if_neg h1]
      have := ih row (col + w.length) (cur ++ w) lines
        (pos ++ placeChars row 0 w.length)
      simp only [List.length_append, placeChars_length] at this ⊢
      omega

theorem layoutAux_lines_ne_nil (width : Nat) :
    ∀ (ws : List (List Char)) (row col : Nat) (cur : List Char)
      (lines : List (List Char)) (pos : List (Nat × Nat)),
    (layoutAux width ws row col cur lines pos).1 ≠ [] := by
  intro ws
  induction ws with
  | nil =>
    intro row col cur lines pos
    show (if cur = [] ∧ lines ≠ [] then lines else lines ++ [cur]) ≠ []
    by_cases h : cur = [] ∧ lines ≠ []
    · rw [if_pos h]
      exact h.2
    · rw [if_neg h]
      simp
  | cons w rest ih =>
    intro row col cur lines pos
    by_cases h1 : 0 < col
    · by_cases h2 : width < col + 1 + w.length
      · simp only [layoutAux]
        rw [if_pos h1, if_pos h2]
        exact ih _ _ _ _ _
      · simp only [layoutAux]
        rw [if_pos h1, if_neg h2]
        exact ih _ _ _ _ _
    · simp only [layoutAux]
      rw [if_neg h1]
      exact ih _ _ _ _ _

/-- C1 (amended): for a non-empty text that is a single-space join of
non-empty tokens and any width ≥ 1, joining the produced lines with single
spaces reproduces the text exactly, and the positions sequence has
`len(text) - (len(lines) - 1)` entries — one per character except the one
separator space consumed by each line wrap (so exactly `len(text)` only
when the layout is a single line). -/
theorem c1_layout_amended (text : List Char) (width : Nat)
    (hne : text ≠ []) (hwf : ∀ t ∈ splitSp text, t ≠ []) (hw : 1 ≤ width) :
    joinSp (layout_prompt text width).1 = text ∧
    (layout_prompt text width).2.length +
      (layout_prompt text width).1.length = text.length + 1 := by
  obtain ⟨t, rest, hts⟩ : ∃ t rest, splitSp text = t :: rest := by
    cases h : splitSp text with
    | nil => exact absurd h (splitSp_ne_nil text)
    | cons t ts => exact ⟨t, ts, rfl⟩
  have ht : t ≠ [] := hwf t (hts ▸ List.mem_cons_self _ _)
  have hrest : ∀ u ∈ rest, u ≠ [] := fun u hu =>
    hwf u (hts ▸ List.mem_cons_of_mem _ hu)
  have hjoin : joinSp (layout_prompt text width).1 = text := by
    rw [layout_prompt, hts]
    simp only [layoutAux]
    rw [if_neg (lt_irrefl 0)]
    rw [layoutAux_joinSp width rest 0 (0 + t.length) ([] ++ t) [] _
      (by simp) (by simpa using ht) hrest]
    simp only [List.nil_append]
    rw [show joinSp [t ++ sepJoin rest] = t ++ sepJoin rest from rfl]
    rw [← joinSp_cons_sepJoin, ← hts, joinSp_splitSp]
  refine ⟨hjoin, ?_⟩
  have hsum := layoutAux_sum width (splitSp text) 0 0 [] [] []
  have hSL : ((layout_prompt text width).1.map List.length).sum =
      (layout_prompt text width).2.length := by
    simpa [layout_prompt] using hsum
  have hlne : (layout_prompt text width).1 ≠ [] :=
    layoutAux_lines_ne_nil width (splitSp text) 0 0 [] [] []
  have hjl := joinSp_length _ hlne
  rw [hjoin] at hjl
  omega

/-- C1 counterexample: at text "hello world foo" and width 10 (at least the
length of the longest token) the layout wraps once and the positions sequence
has 14 entries, not `len(text) = 15` — the separator space consumed by the
wrap gets no recorded position. -/
theorem c1_layout_counterexample :
    (layout_prompt "hello world foo".data 10).2.length ≠
      "hello world foo".data.length := by decide

theorem c1_layout_amended_witness :
    joinSp (layout_prompt "hello world foo".data 10).1 =
      "hello world foo".data ∧
    (layout_prompt "hello world foo".data 10).2.length +
      (layout_prompt "hello world foo".data 10).1.length =
      "hello world foo".data.length + 1 :=
  c1_layout_amended "hello world foo".data 10 (by decide) (by decide)
    (by norm_num)

theorem sepJoin_length (t : List Char) (ts : List (List Char)) :
    (sepJoin (t :: ts)).length = 1 + t.length + (sepJoin ts).length := by
  rw [sepJoin_cons]
  simp
  omega

theorem layoutAux_nowrap (width : Nat) :
    ∀ (ws : List (List Char)) (row col : Nat) (cur : List Char)
      (lines : List (List Char)) (pos : List (Nat × Nat)),
    0 < col → col + (sepJoin ws).length ≤ width →
    (layoutAux width ws row col cur lines pos).2 =
      pos ++ placeChars row col (sepJoin ws).length := by
  intro ws
  induction ws with
  | nil =>
    intro row col cur lines pos _ _
    show pos = pos ++ placeChars row col (sepJoin []).length
    rw [sepJoin_nil]
    simp [placeChars]
  | cons w rest ih =>
    intro row col cur lines pos hcol hfit
    rw [sepJoin_length] at hfit
    have hno : ¬ width < col + 1 + w.length := by omega
    simp only [layoutAux]
    rw [if_pos hcol, if_neg hno]
    rw [ih row (col + 1 + w.length) (cur ++ ' ' :: w) lines _ (by omega)
      (by omega)]
    rw [show ((row, col) :: placeChars row (col + 1) w.length) =
      placeChars row col (w.length + 1) from rfl]
    rw [List.append_assoc]
    rw [show col + 1 + w.length = col + (w.length + 1) from by omega]
    rw [← placeChars_append, sepJoin_length]
    have h1 : w.length + 1 + (sepJoin rest).length =
        1 + w.length + (sepJoin rest).length := by omega
    rw [h1]

theorem splitSp_headD_ne_nil (c : Char) (r : List Char) (hc : c ≠ ' ') :
    (splitSp (c :: r)).headD [] ≠ [] := by
  cases h : splitSp r with
  | nil => exact absurd h (splitSp_ne_nil r)
  | cons t ts =>
    simp [splitSp, h, hc]

theorem layout_nowrap_positions (text : List Char) (width : Nat)
    (hhead : (splitSp text).headD [] ≠ [])
    (hw : text.length ≤ width) :
    (layout_prompt text width).2 = placeChars 0 0 text.length := by
  obtain ⟨t, rest, hts⟩ : ∃ t rest, splitSp text = t :: rest := by
    cases h : splitSp text with
    | nil => exact absurd h (splitSp_ne_nil text)
    | cons t ts => exact ⟨t, ts, rfl⟩
  have ht : t ≠ [] := by
    rw [hts] at hhead
    simpa using hhead
  have hlen : text.length = t.length + (sepJoin rest).length := by
    conv_lhs => rw [← joinSp_splitSp text, hts, joinSp_cons_sepJoin]
    simp
  rw [layout_prompt, hts]
  simp only [layoutAux]
  rw [if_neg (lt_irrefl 0)]
  rw [layoutAux_nowrap width rest 0 (0 + t.length) ([] ++ t) [] _
    (by simpa using List.length_pos.mpr ht) (by omega)]
  simp only [List.nil_append, Nat.zero_add]
  rw [hlen, placeChars_append]
  rw [Nat.zero_add]

theorem build_starts (words typed : List (List Char)) :
    (build_rendered_text words typed).2 =
      (List.range words.length).map (startOf words typed) := by
  show (buildAux words typed 0).2 = _
  rw [buildAux_snd]
  refine List.map_congr_left ?_
  intro i _
  exact Nat.zero_add _

theorem startOf_mono (words typed : List (List Char)) {i j : Nat}
    (h : i ≤ j) : startOf words typed i ≤ startOf words typed j := by
  induction h with
  | refl => exact le_rfl
  | step hm ih =>
    rw [startOf_succ]
    omega

theorem map_range_getD (f : Nat → Nat) (n w : Nat) (h : w < n) :
    ((List.range n).map f).getD w 0 = f w := by
  rw [List.getD_eq_getElem?_getD, List.getElem?_map, List.getElem?_range h]
  rfl

theorem sum_map_succ (g : Nat → Nat) (n : Nat) :
    ((List.range n).map (fun j => g j + 1)).sum =
      ((List.range n).map g).sum + n := by
  induction n with
  | zero => simp
  | succ m ih =>
    rw [List.range_succ, List.map_append, List.sum_append,
      List.map_append, List.sum_append, ih]
    simp
    omega

theorem build_rendered_length (words typed : List (List Char))
    (hne : words ≠ []) :
    (build_rendered_text words typed).1.length + 1 =
      startOf words typed words.length := by
  have hfst : (build_rendered_text words typed).1 =
      joinSp ((List.range words.length).map (fun i =>
        words.getD i [] ++ List.replicate ((typed.getD i []).length -
          (words.getD i []).length) ' ')) := by
    show joinSp (buildAux words typed 0).1 = _
    rw [buildAux_fst]
  have hn : 0 < words.length := List.length_pos.mpr hne
  have hmapne : ((List.range words.length).map (fun i =>
      words.getD i [] ++ List.replicate ((typed.getD i []).length -
        (words.getD i []).length) ' ')) ≠ [] := by
    simp only [ne_eq, List.map_eq_nil_iff, List.range_eq_nil]
    omega
  have hlen := joinSp_length _ hmapne
  rw [← hfst] at hlen
  have hS : (((List.range words.length).map (fun i =>
      words.getD i [] ++ List.replicate ((typed.getD i []).length -
        (words.getD i []).length) ' ')).map List.length).sum =
      ((List.range words.length).map (slotD words typed)).sum := by
    rw [List.map_map]
    refine congrArg List.sum (List.map_congr_left ?_)
    intro i _
    simp only [Function.comp_apply, List.length_append,
      List.length_replicate, slotD]
    omega
  have hstart : startOf words typed words.length =
      ((List.range words.length).map (slotD words typed)).sum +
        words.length := by
    unfold startOf
    have := sum_map_succ (slotD words typed) words.length
    simpa using this
  rw [hS] at hlen
  simp only [List.length_map, List.length_range] at hlen
  omega

theorem countP_range_eq (p : Nat → Bool) (n w : Nat) (hw : w < n)
    (h1 : ∀ j, j ≤ w → p j = true) (h2 : ∀ j, w < j → p j = false) :
    (List.range n).countP p = w + 1 := by
  induction n with
  | zero => omega
  | succ m ih =>
    rw [List.range_succ, List.countP_append]
    by_cases hm : w < m
    · rw [ih hm]
      have : p m = false := h2 m hm
      simp [List.countP_cons, this]
    · have hwm : w = m := by omega
      subst hwm
      have hall : (List.range w).countP p = w := by
        have := List.countP_eq_length.mpr
          (fun a ha => h1 a (le_of_lt (List.mem_range.mp ha)))
        rw [this, List.length_range]
      rw [hall]
      have : p w = true := h1 w le_rfl
      simp [List.countP_cons, this]

/-- C2 (amended): with non-empty, space-free prompt words, at most one
typed buffer per prompt word, and a width at least the length of the rendered
text (no line wrap), every typed character at word `w`, offset `i` is
assigned the rendered-text offset `promptStarts[w] + i`, that offset has a
valid recorded screen coordinate (row 0, column equal to the offset), and
mapping the offset back through `promptStarts` recovers exactly `(w, i)` —
overtyped characters included. -/
theorem c2_roundtrip (words typed : List (List Char)) (width w i : Nat)
    (hwne : ∀ u ∈ words, u ≠ [])
    (hwsp : ∀ u ∈ words, ' ' ∉ u)
    (hlen : typed.length ≤ words.length)
    (hw : w < typed.length)
    (hi : i < (typed.getD w []).length)
    (hwidth : (build_rendered_text words typed).1.length ≤ width) :
    (build_rendered_text words typed).2.getD w 0 + i <
      (layout_prompt (build_rendered_text words typed).1 width).2.length ∧
    (layout_prompt (build_rendered_text words typed).1 width).2.getD
      ((build_rendered_text words typed).2.getD w 0 + i) (0, 0) =
      (0, (build_rendered_text words typed).2.getD w 0 + i) ∧
    mapBack (build_rendered_text words typed).2
      ((build_rendered_text words typed).2.getD w 0 + i) = (w, i) := by
  have hwn : w < words.length := lt_of_lt_of_le hw hlen
  have hwordsne : words ≠ [] := by
    intro h
    rw [h] at hwn
    simp at hwn
  have hgetD : (build_rendered_text words typed).2.getD w 0 =
      startOf words typed w := by
    rw [build_starts]
    exact map_range_getD _ _ _ hwn
  have hslot : i < slotD words typed w :=
    lt_of_lt_of_le hi (le_max_right _ _)
  have hofflt : startOf words typed w + i + 2 ≤
      startOf words typed (w + 1) := by
    rw [startOf_succ]
    omega
  have hofftotal : startOf words typed w + i <
      (build_rendered_text words typed).1.length := by
    have h1 : startOf words typed (w + 1) ≤
        startOf words typed words.length := startOf_mono _ _ (by omega)
    have h2 := build_rendered_length words typed hwordsne
    omega
  have hhead : (splitSp (build_rendered_text words typed).1).headD [] ≠ [] := by
    obtain ⟨w0, wrest, hw0⟩ : ∃ w0 wrest, words = w0 :: wrest := by
      cases words with
      | nil => exact absurd rfl hwordsne
      | cons a b => exact ⟨a, b, rfl⟩
    have hw0ne : w0 ≠ [] := hwne w0 (hw0 ▸ List.mem_cons_self _ _)
    obtain ⟨c0, c0r, hc0⟩ : ∃ c0 c0r, w0 = c0 :: c0r := by
      cases w0 with
      | nil => exact absurd rfl hw0ne
      | cons a b => exact ⟨a, b, rfl⟩
    have hc0sp : c0 ≠ ' ' := by
      intro h
      exact hwsp w0 (hw0 ▸ List.mem_cons_self _ _) (hc0 ▸ h ▸
        List.mem_cons_self _ _)
    have hrend : ∃ rr, (build_rendered_text words typed).1 = c0 :: rr := by
      refine ⟨c0r ++ List.replicate ((typed.headD []).length -
        (c0 :: c0r).length) ' ' ++
        sepJoin (buildAux wrest typed.tail
          (0 + (renderedWord w0 (typed.headD [])).length + 1)).1, ?_⟩
      rw [hw0]
      show joinSp (buildAux (w0 :: wrest) typed 0).1 = _
      show joinSp (renderedWord w0 (typed.headD []) ::
        (buildAux wrest typed.tail
          (0 + (renderedWord w0 (typed.headD [])).length + 1)).1) = _
      rw [joinSp_cons_sepJoin, hc0]
      simp [renderedWord, List.append_assoc]
    obtain ⟨rr, hrr⟩ := hrend
    rw [hrr]
    exact splitSp_headD_ne_nil c0 rr hc0sp
  have hposid : (layout_prompt (build_rendered_text words typed).1 width).2 =
      placeChars 0 0 (build_rendered_text words typed).1.length :=
    layout_nowrap_positions _ _ hhead hwidth
  refine ⟨?_, ?_, ?_⟩
  · rw [hposid, placeChars_length, hgetD]
    exact hofftotal
  · rw [hposid, hgetD, placeChars_getD _ _ _ _ (hgetD ▸ hofftotal)]
    rw [Nat.zero_add]
  · have hcount : (build_rendered_text words typed).2.countP
        (fun s => decide (s ≤ startOf words typed w + i)) = w + 1 := by
      rw [build_starts, List.countP_map]
      refine countP_range_eq _ _ _ hwn ?_ ?_
      · intro j hj
        simp only [Function.comp_apply, decide_eq_true_eq]
        exact le_trans (startOf_mono _ _ hj) (by omega)
      · intro j hj
        simp only [Function.comp_apply, decide_eq_false_iff_not, not_le]
        have : startOf words typed (w + 1) ≤ startOf words typed j :=
          startOf_mono _ _ (by omega)
        omega
    show mapBack (build_rendered_text words typed).2
      ((build_rendered_text words typed).2.getD w 0 + i) = (w, i)
    rw [hgetD]
    unfold mapBack
    rw [hcount]
    have hsub : w + 1 - 1 = w := by omega
    rw [hsub]
    show (w, startOf words typed w + i -
      (build_rendered_text words typed).2.getD w 0) = (w, i)
    rw [hgetD]
    have hii : startOf words typed w + i - startOf words typed w = i := by
      omega
    rw [hii]

theorem c2_roundtrip_witness :
    (build_rendered_text [['c', 'a', 't']]
      [['c', 'a', 't', 'd', 'o', 'g']]).2.getD 0 0 + 5 <
      (layout_prompt (build_rendered_text [['c', 'a', 't']]
        [['c', 'a', 't', 'd', 'o', 'g']]).1 20).2.length ∧
    (layout_prompt (build_rendered_text [['c', 'a', 't']]
      [['c', 'a', 't', 'd', 'o', 'g']]).1 20).2.getD
      ((build_rendered_text [['c', 'a', 't']]
        [['c', 'a', 't', 'd', 'o', 'g']]).2.getD 0 0 + 5) (0, 0) =
      (0, (build_rendered_text [['c', 'a', 't']]
        [['c', 'a', 't', 'd', 'o', 'g']]).2.getD 0 0 + 5) ∧
    mapBack (build_rendered_text [['c', 'a', 't']]
      [['c', 'a', 't', 'd', 'o', 'g']]).2
      ((build_rendered_text [['c', 'a', 't']]
        [['c', 'a', 't', 'd', 'o', 'g']]).2.getD 0 0 + 5) = (0, 5) :=
  c2_roundtrip [['c', 'a', 't']] [['c', 'a', 't', 'd', 'o', 'g']] 20 0 5
    (by decide) (by decide) (by decide) (by decide) (by decide) (by decide)

/-- C2 counterexample: prompt ["hello", "world"], both words fully typed,
width 6. The layout wraps, positions has only 10 entries, and the typed
character (word 1, offset 4) is assigned offset `promptStarts[1] + 4 = 10`,
which is not a valid index into positions — so not every typed character
has a valid screen coordinate for every width ≥ 1. -/
theorem c2_roundtrip_counterexample :
    ¬ ((build_rendered_text
        [['h', 'e', 'l', 'l', 'o'], ['w', 'o', 'r', 'l', 'd']]
        [['h', 'e', 'l', 'l', 'o'], ['w', 'o', 'r', 'l', 'd']]).2.getD 1 0 + 4 <
      (layout_prompt (build_rendered_text
        [['h', 'e', 'l', 'l', 'o'], ['w', 'o', 'r', 'l', 'd']]
        [['h', 'e', 'l', 'l', 'o'], ['w', 'o', 'r', 'l', 'd']]).1 6).2.length) := by
  decide
